import Mathlib

/- Verification of the rich-markdown-editor component.

   The definitions below are a shallow embedding of the editor's TypeScript
   source: the Markdown serialization of the image and embed nodes, the
   upload plugin's paste and drop handlers, the embed removal logic, the
   heading collection with slug deduplication, the extension assembly done
   by init(), and the dispatchTransaction/onChange wiring.

   Code of third-party libraries (prosemirror-markdown's esc, markdown-it's
   inline tokenization, ProseMirror's position arithmetic) and of repository
   files that are not part of the sources at hand is modelled explicitly;
   each such definition carries a doc comment saying what it models. -/

namespace RME

/-! ### Markdown escaping

The serializer state's esc method escapes the characters `` ` ``, `*`, `\`,
`~`, `[`, `]` by prefixing a backslash (prosemirror-markdown, third party,
modelled from its documented behaviour). -/

/-- The characters escaped by the serializer's esc method: backtick, `*`,
backslash, `~`, `[`, `]`. -/
def escTargets : List Char := [Char.ofNat 96, '*', '\\', '~', '[', ']']

def escMdChar (c : Char) : List Char :=
  if c ∈ escTargets then ['\\', c] else [c]

def escMdList : List Char → List Char
  | [] => []
  | c :: cs => escMdChar c ++ escMdList cs

/-- state.esc of prosemirror-markdown (without the start-of-line extras,
which the image and embed serializers do not request). -/
def escMd (s : String) : String := ⟨escMdList s.data⟩

/-- ASCII punctuation, the characters whose backslash escapes CommonMark
removes when reading inline text. -/
def mdPunctChars : List Char :=
  ['!', '"', '#', '$', '%', '&', Char.ofNat 39, '(', ')', '*', '+', ',', '-',
   '.', '/', ':', ';', '<', '=', '>', '?', '@', '[', '\\', ']', '^', '_',
   Char.ofNat 96, Char.ofNat 123, '|', Char.ofNat 125, '~']

/-- CommonMark backslash-escape removal (markdown-it, third party): a
backslash followed by ASCII punctuation stands for that character. -/
def unescListMd : List Char → List Char
  | [] => []
  | [c] => [c]
  | c :: c2 :: cs =>
    if c = '\\' ∧ c2 ∈ mdPunctChars then c2 :: unescListMd cs
    else c :: unescListMd (c2 :: cs)

/-- JS `s.replace("\n", "")`: remove the first newline only. -/
def removeFirstList : List Char → List Char
  | [] => []
  | c :: cs => if c = '\n' then cs else c :: removeFirstList cs

def removeFirstNewline (s : String) : String := ⟨removeFirstList s.data⟩

/-- Scan to the first unescaped occurrence of the delimiter; the flag records
that the previous character was an unconsumed backslash. -/
def scanToDelimAux (d : Char) : Bool → List Char → Option (List Char × List Char)
  | _, [] => none
  | true, c :: cs => (scanToDelimAux d false cs).map (fun p => (c :: p.1, p.2))
  | false, c :: cs =>
    if c = d then some ([], cs)
    else if c = '\\' then (scanToDelimAux d true cs).map (fun p => (c :: p.1, p.2))
    else (scanToDelimAux d false cs).map (fun p => (c :: p.1, p.2))

/-- Scan to the first unescaped occurrence of the delimiter `d`; return the
raw characters before it and the remainder after it (CommonMark reading of
bracketed segments: a backslash always consumes the following character). -/
def scanToDelim (d : Char) (l : List Char) : Option (List Char × List Char) :=
  scanToDelimAux d false l

/-! ### Lemmas about escaping -/

theorem mem_escMdList {c : Char} {l : List Char} (h : c ∈ escMdList l) :
    c = '\\' ∨ c ∈ l := by
  induction l with
  | nil => simp [escMdList] at h
  | cons a as ih =>
    simp only [escMdList, escMdChar, List.mem_append] at h
    rcases h with h | h
    · by_cases ha : a ∈ escTargets
      · simp only [ha, if_true, List.mem_cons, List.mem_singleton] at h
        rcases h with h | h | h
        · exact Or.inl h
        · exact Or.inr (by simp [h])
        · simp at h
      · simp only [ha, if_false, List.mem_singleton] at h
        exact Or.inr (by simp [h])
    · rcases ih h with h | h
      · exact Or.inl h
      · exact Or.inr (List.mem_cons_of_mem _ h)

theorem escMdList_eq_nil {l : List Char} (h : escMdList l = []) : l = [] := by
  cases l with
  | nil => rfl
  | cons a as =>
    simp only [escMdList, escMdChar] at h
    by_cases ha : a ∈ escTargets <;> simp [ha] at h

theorem unesc_escMdList (l : List Char) : unescListMd (escMdList l) = l := by
  induction l with
  | nil => rfl
  | cons a as ih =>
    simp only [escMdList, escMdChar]
    by_cases ha : a ∈ escTargets
    · have hp : a ∈ mdPunctChars := by
        simp only [escTargets, List.mem_cons, List.not_mem_nil, or_false] at ha
        rcases ha with h | h | h | h | h | h <;> simp [h, mdPunctChars]
      simp only [ha, if_true, List.cons_append, List.nil_append]
      rw [unescListMd]
      simp [hp, ih]
    · simp only [ha, if_false, List.singleton_append]
      cases hcase : escMdList as with
      | nil =>
        have : as = [] := escMdList_eq_nil hcase
        simp [this, unescListMd]
      | cons b bs =>
        have hne : a ≠ '\\' := by
          intro h
          apply ha
          simp [h, escTargets]
        rw [hcase] at ih
        rw [unescListMd]
        simp only [hne, false_and, if_false]
        rw [ih]

theorem escMdList_id {l : List Char} (h : ∀ c ∈ l, c ∉ escTargets) :
    escMdList l = l := by
  induction l with
  | nil => rfl
  | cons a as ih =>
    have ha := h a (List.mem_cons_self a as)
    simp only [escMdList, escMdChar, ha, if_false, List.singleton_append]
    rw [ih fun c hc => h c (List.mem_cons_of_mem _ hc)]

theorem count_escMdList {c : Char} (hc : c ≠ '\\') (l : List Char) :
    (escMdList l).count c = l.count c := by
  induction l with
  | nil => rfl
  | cons a as ih =>
    simp only [escMdList, escMdChar]
    by_cases ha : a ∈ escTargets
    · simp only [ha, if_true, List.cons_append, List.nil_append]
      rw [List.count_cons, List.count_cons, List.count_cons, ih]
      have : ('\\' == c) = false := by
        simp only [beq_eq_false_iff_ne, ne_eq]
        exact fun h => hc h.symm
      simp [this]
    · simp only [ha, if_false, List.singleton_append]
      rw [List.count_cons, List.count_cons, ih]

theorem scanToDelim_esc {d : Char} (hd : d ∈ escTargets)
    (hdb : d ≠ '\\') (l rest : List Char) :
    scanToDelim d (escMdList l ++ d :: rest) = some (escMdList l, rest) := by
  unfold scanToDelim
  induction l with
  | nil => simp [escMdList, scanToDelimAux]
  | cons a as ih =>
    simp only [escMdList, escMdChar]
    by_cases ha : a ∈ escTargets
    · simp only [ha, if_true, List.cons_append, List.nil_append]
      rw [scanToDelimAux]
      have hbd : ¬ ('\\' = d) := fun h => hdb h.symm
      simp only [hbd, if_false, if_pos rfl]
      rw [scanToDelimAux, ih]
      rfl
    · have had : a ≠ d := fun h => ha (h ▸ hd)
      have hab : a ≠ '\\' := by
        intro h; apply ha; simp [h, escTargets]
      simp only [ha, if_false, List.singleton_append, List.cons_append]
      rw [scanToDelimAux]
      simp only [had, if_false, hab, List.nil_append]
      rw [ih]
      rfl

theorem scanToDelim_plain {d : Char} (l rest : List Char)
    (h : ∀ c ∈ l, c ≠ d ∧ c ≠ '\\') :
    scanToDelim d (l ++ d :: rest) = some (l, rest) := by
  unfold scanToDelim
  induction l with
  | nil => simp [scanToDelimAux]
  | cons a as ih =>
    have ha := h a (List.mem_cons_self a as)
    simp only [List.cons_append]
    rw [scanToDelimAux]
    simp only [ha.1, if_false, ha.2]
    rw [ih fun c hc => h c (List.mem_cons_of_mem _ hc)]
    rfl

theorem removeFirstList_id {l : List Char} (h : ∀ c ∈ l, c ≠ '\n') :
    removeFirstList l = l := by
  induction l with
  | nil => rfl
  | cons a as ih =>
    have ha := h a (List.mem_cons_self a as)
    simp only [removeFirstList, ha, if_false]
    rw [ih fun c hc => h c (List.mem_cons_of_mem _ hc)]

theorem removeFirstList_split (b c : List Char) (h : ∀ x ∈ b, x ≠ '\n') :
    removeFirstList (b ++ '\n' :: c) = b ++ c := by
  induction b with
  | nil => simp [removeFirstList]
  | cons a as ih =>
    have ha := h a (List.mem_cons_self a as)
    rw [List.cons_append, removeFirstList]
    simp only [ha, if_false]
    rw [ih fun x hx => h x (List.mem_cons_of_mem _ hx)]
    rfl

/-! ### The image node (nodes/Image)

Image.toMarkdown writes `![esc((alt || "").replace("\n", ""))](esc(src))`
after ensuring the output is at the start of a line; Image.parseMarkdown
reads back a markdown-it image token's src attribute and the content of its
first child token. -/

structure ImageAttrs where
  src : String
  alt : Option String
  deriving DecidableEq

/-- Characters that pass through both the serializer's esc and the Markdown
link-destination grammar unchanged (the hypothesis under which the modelled
tokenizer treats the destination verbatim). -/
def urlSafeChar (c : Char) : Bool :=
  c.isAlphanum || c == '.' || c == '/' || c == ':' || c == '-' || c == '_'

theorem urlSafeChar_props {c : Char} (h : urlSafeChar c = true) :
    c ∉ escTargets ∧ c ≠ ')' ∧ c ≠ '\\' ∧ c ≠ ' ' ∧ c ≠ '\n' := by
  refine ⟨?_, ?_, ?_, ?_, ?_⟩
  · intro hc
    simp only [escTargets, List.mem_cons, List.not_mem_nil, or_false] at hc
    rcases hc with h2 | h2 | h2 | h2 | h2 | h2 <;> subst h2 <;>
      exact absurd h (by decide)
  · intro h2; subst h2; exact absurd h (by decide)
  · intro h2; subst h2; exact absurd h (by decide)
  · intro h2; subst h2; exact absurd h (by decide)
  · intro h2; subst h2; exact absurd h (by decide)

theorem unescListMd_id {l : List Char} (h : ∀ c ∈ l, c ≠ '\\') :
    unescListMd l = l := by
  induction l with
  | nil => rfl
  | cons a as ih =>
    have ha := h a (List.mem_cons_self a as)
    cases as with
    | nil => rfl
    | cons b bs =>
      rw [unescListMd]
      simp only [ha, false_and, if_false]
      rw [ih fun c hc => h c (List.mem_cons_of_mem _ hc)]

namespace Image

/-- Image.toMarkdown (after state.ensureNewLine): the text written for an
image node. -/
def toMarkdownText (a : ImageAttrs) : String :=
  "![" ++ escMd (removeFirstNewline (a.alt.getD "")) ++ "](" ++ escMd a.src ++ ")"

theorem toMarkdownText_data (a : ImageAttrs) :
    (toMarkdownText a).data =
      '!' :: '[' :: (escMdList (removeFirstList (a.alt.getD "").data) ++
        ']' :: '(' :: (escMdList a.src.data ++ [')'])) := by
  simp [toMarkdownText, escMd, removeFirstNewline, String.data_append]

end Image

/-- The fields of a markdown-it image token that Image.parseMarkdown reads:
the src attribute and the contents of the child tokens of the label (a
modelled markdown-it token; only the first child's content is consulted by
getAttrs, so only the label text up to the first softbreak is recorded). -/
structure MDTokenImage where
  src : String
  children : List String
  deriving DecidableEq

/-- Child text tokens of an image label: markdown-it splits the label at
softbreaks; an empty leading segment yields no leading text token. -/
def mdChildren (label : List Char) : List String :=
  let seg := label.takeWhile (fun c => c != '\n')
  if seg = [] then [] else [⟨unescListMd seg⟩]

/-- The text up to the first newline: the content of the first text token of
an inline sequence split at softbreaks. -/
def firstLineOf (s : String) : String :=
  ⟨s.data.takeWhile (fun c => c != '\n')⟩

def mdImageAfterDest (label : List Char) :
    Option (List Char × List Char) → Option MDTokenImage
  | none => none
  | some (dest, rest4) =>
    if rest4 = [] ∧ dest.all (fun c => !(c == ' ' || c == '\n')) then
      some { src := ⟨unescListMd dest⟩, children := mdChildren label }
    else none

def mdImageAfterLabel : Option (List Char × List Char) → Option MDTokenImage
  | none => none
  | some (label, rest2) =>
    match rest2 with
    | '(' :: rest3 => mdImageAfterDest label (scanToDelim ')' rest3)
    | _ => none

/-- Modelled markdown-it inline tokenization of a line holding exactly one
image: `![label](dest)` with the label read to the first unescaped `]`, the
destination read to the first unescaped `)` and free of whitespace, and
backslash escapes removed from both (third party, modelled from the
CommonMark image rule). -/
def mdTokenizeImage (s : String) : Option MDTokenImage :=
  match s.data with
  | '!' :: '[' :: rest => mdImageAfterLabel (scanToDelim ']' rest)
  | _ => none

namespace Image

/-- Image.parseMarkdown's getAttrs: src from the token's src attribute, alt
from the first child's content, null when there is none or it is empty. -/
def getAttrs (t : MDTokenImage) : ImageAttrs :=
  { src := t.src
  , alt := match t.children.head? with
           | some c => if c = "" then none else some c
           | none => none }

end Image

theorem mk_data (s : String) : (⟨s.data⟩ : String) = s := by cases s; rfl

theorem takeWhile_escMdList (l : List Char) :
    (escMdList l).takeWhile (fun c => c != '\n') =
      escMdList (l.takeWhile (fun c => c != '\n')) := by
  induction l with
  | nil => rfl
  | cons a as ih =>
    by_cases ha : a = '\n'
    · subst ha
      have h1 : escMdChar '\n' = ['\n'] := by decide
      rw [escMdList, h1, List.singleton_append, List.takeWhile_cons,
        List.takeWhile_cons]
      simp [escMdList]
    · have hba : (a != '\n') = true := by simp [ha]
      by_cases hm : a ∈ escTargets
      · simp only [escMdList, escMdChar, hm, if_true, List.cons_append,
          List.nil_append]
        rw [List.takeWhile_cons, List.takeWhile_cons, List.takeWhile_cons]
        simp only [show (('\\' : Char) != '\n') = true from by decide, if_true,
          hba]
        rw [ih]
        simp [escMdList, escMdChar, hm]
      · simp only [escMdList, escMdChar, hm, if_false, List.singleton_append]
        rw [List.takeWhile_cons, List.takeWhile_cons]
        simp only [hba, if_true]
        rw [ih]
        simp [escMdList, escMdChar, hm]

theorem firstLineOf_no_newline {s : String} (h : ∀ c ∈ s.data, c ≠ '\n') :
    firstLineOf s = s := by
  rw [firstLineOf]
  rw [List.takeWhile_eq_self_iff.2 fun x hx => by simp [h x hx]]

theorem scanToDelim_esc_plain {d : Char} (hd : d ∉ escTargets) (l rest : List Char)
    (h : ∀ c ∈ l, c ≠ d) :
    scanToDelim d (escMdList l ++ d :: rest) = some (escMdList l, rest) := by
  have hdb : d ≠ '\\' := fun he => hd (by simp [he, escTargets])
  unfold scanToDelim
  induction l with
  | nil => simp [escMdList, scanToDelimAux]
  | cons a as ih =>
    simp only [escMdList, escMdChar]
    by_cases ha : a ∈ escTargets
    · simp only [ha, if_true, List.cons_append, List.nil_append]
      rw [scanToDelimAux]
      have hbd : ¬ ('\\' = d) := fun he => hdb he.symm
      simp only [hbd, if_false, if_pos rfl]
      rw [scanToDelimAux, ih fun c hc => h c (List.mem_cons_of_mem _ hc)]
      rfl
    · have had : a ≠ d := h a (List.mem_cons_self a as)
      have hab : a ≠ '\\' := fun he => ha (by simp [he, escTargets])
      simp only [ha, if_false, List.singleton_append, List.cons_append]
      rw [scanToDelimAux]
      simp only [had, if_false, hab, List.nil_append]
      rw [ih fun c hc => h c (List.mem_cons_of_mem _ hc)]
      rfl

theorem mdTokenizeImage_round (a : ImageAttrs)
    (hsrc : ∀ c ∈ a.src.data, c ≠ ')' ∧ c ≠ ' ' ∧ c ≠ '\n') :
    mdTokenizeImage (Image.toMarkdownText a) =
      some { src := a.src
           , children :=
               if firstLineOf (removeFirstNewline (a.alt.getD "")) = "" then []
               else [firstLineOf (removeFirstNewline (a.alt.getD ""))] } := by
  set altList := (removeFirstNewline (a.alt.getD "")).data with haltList
  rw [mdTokenizeImage, Image.toMarkdownText_data a]
  rw [show removeFirstList (a.alt.getD "").data = altList from rfl]
  change mdImageAfterLabel (scanToDelim ']'
    (escMdList altList ++ ']' :: '(' :: (escMdList a.src.data ++ [')']))) = _
  rw [scanToDelim_esc (by decide) (by decide)]
  rw [mdImageAfterLabel]
  rw [scanToDelim_esc_plain (by decide) _ _ fun c hc => (hsrc c hc).1]
  rw [mdImageAfterDest]
  have hall : (escMdList a.src.data).all (fun c => !(c == ' ' || c == '\n')) = true := by
    rw [List.all_eq_true]
    intro c hc
    rcases mem_escMdList hc with h2 | h2
    · subst h2; decide
    · simp [(hsrc c h2).2.1, (hsrc c h2).2.2]
  rw [if_pos ⟨rfl, hall⟩]
  congr 1
  simp only [MDTokenImage.mk.injEq]
  constructor
  · rw [unesc_escMdList]
  · simp only [mdChildren]
    rw [takeWhile_escMdList]
    have hfl : firstLineOf (removeFirstNewline (a.alt.getD "")) =
        ⟨altList.takeWhile (fun c => c != '\n')⟩ := rfl
    by_cases hnil : altList.takeWhile (fun c => c != '\n') = []
    · have h0 : firstLineOf (removeFirstNewline (a.alt.getD "")) = "" := by
        rw [hfl, hnil]
      simp [hnil, h0, escMdList]
    · have h1 : escMdList (altList.takeWhile (fun c => c != '\n')) ≠ [] :=
        fun h => hnil (escMdList_eq_nil h)
      have h0 : firstLineOf (removeFirstNewline (a.alt.getD "")) ≠ "" := by
        rw [hfl]
        intro hs
        apply hnil
        have := congrArg String.data hs
        simpa using this
      rw [if_neg h1, if_neg h0]
      rw [unesc_escMdList, hfl]

/-- Claim C3 (amended): for an image whose src stays within the Markdown
image grammar (no `)`, space or newline — esc escapes none of these, while
the characters esc does escape round-trip fine), the round trip preserves
src exactly, and the parsed alt is the first line of the alt after its
first newline is removed (markdown-it splits the label at the remaining
newlines and getAttrs reads only the first text token), null when that
text is empty; in particular alt survives exactly when it contains no
newline. -/
theorem image_attrs_roundtrip (a : ImageAttrs)
    (hsrc : ∀ c ∈ a.src.data, c ≠ ')' ∧ c ≠ ' ' ∧ c ≠ '\n') :
    (mdTokenizeImage (Image.toMarkdownText a)).map Image.getAttrs =
      some { src := a.src
           , alt := if firstLineOf (removeFirstNewline (a.alt.getD "")) = "" then none
                    else some (firstLineOf (removeFirstNewline (a.alt.getD ""))) } := by
  rw [mdTokenizeImage_round a hsrc]
  by_cases h : firstLineOf (removeFirstNewline (a.alt.getD "")) = "" <;>
    simp [h, Image.getAttrs]

/-- Witness for C3: a query-string src and a two-newline alt — the src
round-trips exactly and the alt comes back as the first line after the
first newline is dropped. -/
theorem image_attrs_roundtrip_witness :
    (mdTokenizeImage (Image.toMarkdownText ⟨"a?b=c", some "a\nb\nc"⟩)).map Image.getAttrs =
      some { src := "a?b=c"
           , alt := if firstLineOf (removeFirstNewline ((some "a\nb\nc").getD "")) = ""
                    then none
                    else some (firstLineOf (removeFirstNewline ((some "a\nb\nc").getD ""))) } :=
  image_attrs_roundtrip ⟨"a?b=c", some "a\nb\nc"⟩ (by decide)

/-- Counterexample for C3 as stated: an alt text holding a newline does not
survive the round trip, since toMarkdown drops the newline; the serialized
forms of the two distinct alt texts coincide. -/
theorem image_roundtrip_newline_counterexample :
    Image.toMarkdownText ⟨"a.png", some "a\nb"⟩ =
      Image.toMarkdownText ⟨"a.png", some "ab"⟩ ∧
    (ImageAttrs.mk "a.png" (some "a\nb") ≠ ImageAttrs.mk "a.png" (some "ab")) ∧
    (mdTokenizeImage (Image.toMarkdownText ⟨"a.png", some "a\nb"⟩)).map Image.getAttrs =
      some ⟨"a.png", some "ab"⟩ :=
  ⟨by decide, by decide, by decide⟩

/-- Claim C10: Image.toMarkdown removes only the first newline of the alt
text before escaping (escaping preserves every later newline), and a null
alt is serialized with empty alt text. -/
theorem image_alt_first_newline_only (src b c : String)
    (hb : ∀ x ∈ b.data, x ≠ '\n') :
    Image.toMarkdownText { src := src, alt := some (b ++ "\n" ++ c) } =
      "![" ++ escMd (b ++ c) ++ "](" ++ escMd src ++ ")" ∧
    (escMd (b ++ c)).data.count '\n' = (b ++ c).data.count '\n' ∧
    Image.toMarkdownText { src := src, alt := none } =
      "![](" ++ escMd src ++ ")" := by
  refine ⟨?_, ?_, ?_⟩
  · have hd : (b ++ "\n" ++ c).data = b.data ++ '\n' :: c.data := by
      rw [String.data_append, String.data_append, List.append_assoc]
      rfl
    have key : removeFirstNewline (b ++ "\n" ++ c) = b ++ c := by
      rw [removeFirstNewline, hd, removeFirstList_split _ _ hb,
        ← String.data_append, mk_data]
    rw [Image.toMarkdownText]
    rw [show (Option.getD (some (b ++ "\n" ++ c)) "") = b ++ "\n" ++ c from rfl, key]
  · rw [escMd]
    rw [show (⟨escMdList (b ++ c).data⟩ : String).data = escMdList (b ++ c).data from rfl]
    exact count_escMdList (by decide) _
  · rw [Image.toMarkdownText]
    rfl

/-- Witness for C10 at a concrete image. -/
theorem image_alt_first_newline_only_witness :
    Image.toMarkdownText { src := "s.png", alt := some ("x" ++ "\n" ++ "y\nz") } =
      "![" ++ escMd ("x" ++ "y\nz") ++ "](" ++ escMd "s.png" ++ ")" ∧
    (escMd ("x" ++ "y\nz")).data.count '\n' = ("x" ++ "y\nz").data.count '\n' ∧
    Image.toMarkdownText { src := "s.png", alt := none } =
      "![](" ++ escMd "s.png" ++ ")" :=
  image_alt_first_newline_only "s.png" "x" "y\nz" (by decide)

/-! ### The document fragment and its serialization (for the value()/
createDocument round trip)

value() returns serializer.serialize(view.state.doc) and createDocument
feeds a string to parser.parse. The fragment below embeds the document
shapes those claims need: paragraphs of text and image inlines, serialized
in order with a blank line between blocks. -/

inductive EInline where
  | text (s : String)
  | image (a : ImageAttrs)
  deriving DecidableEq

inductive EBlock where
  | para (content : List EInline)
  deriving DecidableEq

abbrev EDoc := List EBlock

def serializeInline : EInline → String
  | .text s => escMd s
  | .image a => Image.toMarkdownText a

def serializeBlock : EBlock → String
  | .para xs => String.join (xs.map serializeInline)

def sepJoin : List String → String
  | [] => ""
  | s :: ss => if ss = [] then s else s ++ "\n\n" ++ sepJoin ss

/-- serializer.serialize on the embedded document fragment: blocks rendered
in order, a blank line between consecutive blocks (prosemirror-markdown
closes each block before the next). -/
def serializeDoc (d : EDoc) : String := sepJoin (d.map serializeBlock)

/-- Claim C1 (counterexample): no parse function can invert serialization on
every document, because two distinct documents serialize to the same
string; the value()/createDocument round trip therefore fails on some
document whatever the parser does. -/
theorem serializeDoc_not_injective :
    ¬ ∃ parse : String → EDoc, ∀ d : EDoc, parse (serializeDoc d) = d := by
  rintro ⟨p, hp⟩
  have h1 := hp [EBlock.para [EInline.image ⟨"a.png", some "a\nb"⟩]]
  have h2 := hp [EBlock.para [EInline.image ⟨"a.png", some "ab"⟩]]
  have heq : serializeDoc [EBlock.para [EInline.image ⟨"a.png", some "a\nb"⟩]] =
      serializeDoc [EBlock.para [EInline.image ⟨"a.png", some "ab"⟩]] := by decide
  rw [heq, h2] at h1
  exact absurd h1 (by decide)

def consHead (c : Char) : List (List Char) → List (List Char)
  | [] => [[c]]
  | l :: ls => (c :: l) :: ls

mutual

/-- Split a character stream at blank lines (two consecutive newlines), the
block separator produced by the serializer. -/
def splitBlocks : List Char → List (List Char)
  | [] => [[]]
  | c :: cs => if c = '\n' then splitAfterNl cs else consHead c (splitBlocks cs)

/-- State after one newline: a second newline ends the block. -/
def splitAfterNl : List Char → List (List Char)
  | [] => [['\n']]
  | c :: cs =>
    if c = '\n' then [] :: splitBlocks cs
    else consHead '\n' (consHead c (splitBlocks cs))

end

def parseBlockM (s : String) : EBlock :=
  match mdTokenizeImage s with
  | some t => EBlock.para [EInline.image (Image.getAttrs t)]
  | none => EBlock.para [EInline.text ⟨unescListMd s.data⟩]

/-- Modelled parser.parse at the document level: split the Markdown into
blank-line-separated blocks and read each one, image paragraphs through the
image rule and anything else as a text paragraph. -/
def parseDocM (s : String) : EDoc :=
  (splitBlocks s.data).map (fun l => parseBlockM ⟨l⟩)

theorem splitBlocks_no_newline {l : List Char} (h : ∀ c ∈ l, c ≠ '\n') :
    splitBlocks l = [l] := by
  induction l with
  | nil => rfl
  | cons a as ih =>
    have ha := h a (List.mem_cons_self a as)
    rw [splitBlocks]
    simp only [ha, if_false]
    rw [ih fun c hc => h c (List.mem_cons_of_mem _ hc)]
    rfl

theorem splitBlocks_sep {l : List Char} (cs : List Char) (h : ∀ c ∈ l, c ≠ '\n') :
    splitBlocks (l ++ '\n' :: '\n' :: cs) = l :: splitBlocks cs := by
  induction l with
  | nil =>
    rw [List.nil_append, splitBlocks]
    simp only [if_pos rfl]
    rw [splitAfterNl]
    simp
  | cons a as ih =>
    have ha := h a (List.mem_cons_self a as)
    rw [List.cons_append, splitBlocks]
    simp only [ha, if_false]
    rw [ih fun c hc => h c (List.mem_cons_of_mem _ hc)]
    rfl

/-- Attributes whose image serialization is lossless: URL-safe src; alt
either absent or nonempty and free of newlines. -/
def losslessImage (a : ImageAttrs) : Bool :=
  a.src.data.all urlSafeChar &&
  (match a.alt with
   | none => true
   | some s => (s != "") && s.data.all (fun c => c != '\n'))

theorem losslessImage_props (a : ImageAttrs) (h : losslessImage a = true) :
    (∀ c ∈ a.src.data, urlSafeChar c = true) ∧
    (∀ c ∈ (removeFirstNewline (a.alt.getD "")).data, c ≠ '\n') ∧
    ((if removeFirstNewline (a.alt.getD "") = "" then none
      else some (removeFirstNewline (a.alt.getD ""))) = a.alt) := by
  cases halv : a.alt with
  | none =>
    rw [losslessImage, halv] at h
    simp only [Bool.and_true] at h
    rw [List.all_eq_true] at h
    refine ⟨h, ?_, ?_⟩
    · intro c hc
      simp [removeFirstNewline, removeFirstList] at hc
    · rfl
  | some s =>
    rw [losslessImage, halv] at h
    rw [Bool.and_eq_true, Bool.and_eq_true] at h
    obtain ⟨h1, h2, h3⟩ := h
    rw [List.all_eq_true] at h1
    rw [List.all_eq_true] at h3
    have hs0 : s ≠ "" := by simpa using h2
    have hsnl : ∀ c ∈ s.data, c ≠ '\n' := by
      intro c hc
      simpa using h3 c hc
    have hrs : removeFirstNewline ((some s).getD "") = s := by
      show removeFirstNewline s = s
      rw [removeFirstNewline, removeFirstList_id hsnl, mk_data]
    rw [hrs]
    exact ⟨h1, hsnl, by simp [hs0]⟩

theorem toMarkdownText_no_newline (a : ImageAttrs) (h : losslessImage a = true) :
    ∀ c ∈ (Image.toMarkdownText a).data, c ≠ '\n' := by
  obtain ⟨hsrc, haltnl, _⟩ := losslessImage_props a h
  rw [Image.toMarkdownText_data]
  intro c hc heq
  subst heq
  simp only [List.mem_cons, List.mem_append, List.mem_singleton] at hc
  rcases hc with h1 | h1 | h1 | h1 | h1 | h1 | h1
  · exact absurd h1 (by decide)
  · exact absurd h1 (by decide)
  · rcases mem_escMdList h1 with h2 | h2
    · exact absurd h2 (by decide)
    · exact haltnl '\n' h2 rfl
  · exact absurd h1 (by decide)
  · exact absurd h1 (by decide)
  · rcases mem_escMdList h1 with h2 | h2
    · exact absurd h2 (by decide)
    · exact absurd (hsrc '\n' h2) (by decide)
  · exact absurd h1 (by decide)

theorem parseBlockM_image (a : ImageAttrs) (h : losslessImage a = true) :
    parseBlockM (Image.toMarkdownText a) = EBlock.para [EInline.image a] := by
  obtain ⟨hsrc, haltnl, hId⟩ := losslessImage_props a h
  have hsrc2 : ∀ c ∈ a.src.data, c ≠ ')' ∧ c ≠ ' ' ∧ c ≠ '\n' := by
    intro c hc
    have p := urlSafeChar_props (hsrc c hc)
    exact ⟨p.2.1, p.2.2.2.1, p.2.2.2.2⟩
  have hfl : firstLineOf (removeFirstNewline (a.alt.getD "")) =
      removeFirstNewline (a.alt.getD "") := firstLineOf_no_newline haltnl
  rw [parseBlockM, mdTokenizeImage_round a hsrc2, hfl]
  show EBlock.para [EInline.image (Image.getAttrs _)] = _
  have : Image.getAttrs
      { src := a.src
      , children := if removeFirstNewline (a.alt.getD "") = "" then []
                    else [removeFirstNewline (a.alt.getD "")] } = a := by
    by_cases hz : removeFirstNewline (a.alt.getD "") = ""
    · rw [if_pos hz] at hId ⊢
      simp only [Image.getAttrs]
      cases a
      simp only [ImageAttrs.mk.injEq, true_and]
      simpa using hId
    · rw [if_neg hz] at hId ⊢
      simp only [Image.getAttrs, List.head?, hz, if_neg hz]
      cases a
      simpa using hId
  rw [this]

theorem serializeBlock_single (i : EInline) :
    serializeBlock (EBlock.para [i]) = serializeInline i := by
  show String.join [serializeInline i] = serializeInline i
  apply String.ext
  simp [String.join, String.data_append]

theorem serializeDoc_single (x : EBlock) : serializeDoc [x] = serializeBlock x := by
  rw [serializeDoc]
  simp [sepJoin]

theorem serializeDoc_cons (x y : EBlock) (ys : List EBlock) :
    serializeDoc (x :: y :: ys) =
      serializeBlock x ++ "\n\n" ++ serializeDoc (y :: ys) := by
  rw [serializeDoc, List.map_cons, sepJoin]
  simp [serializeDoc]

theorem parseDocM_single (x : String) (hx : ∀ c ∈ x.data, c ≠ '\n') :
    parseDocM x = [parseBlockM x] := by
  rw [parseDocM, splitBlocks_no_newline hx]
  simp [mk_data]

theorem parseDocM_sep (x y : String) (hx : ∀ c ∈ x.data, c ≠ '\n') :
    parseDocM (x ++ "\n\n" ++ y) = parseBlockM x :: parseDocM y := by
  rw [parseDocM, parseDocM]
  have hd : (x ++ "\n\n" ++ y).data = x.data ++ '\n' :: '\n' :: y.data := by
    rw [String.data_append, String.data_append, List.append_assoc]
    rfl
  rw [hd, splitBlocks_sep _ hx, List.map_cons, mk_data]

theorem roundtrip_image_cons (rest : List ImageAttrs) (a : ImageAttrs) :
    (∀ x ∈ a :: rest, losslessImage x = true) →
    parseDocM (serializeDoc ((a :: rest).map fun x => EBlock.para [EInline.image x])) =
      (a :: rest).map fun x => EBlock.para [EInline.image x] := by
  induction rest generalizing a with
  | nil =>
    intro h
    have ha := h a (List.mem_cons_self a [])
    rw [List.map_cons, List.map_nil, serializeDoc_single, serializeBlock_single]
    rw [show serializeInline (EInline.image a) = Image.toMarkdownText a from rfl]
    rw [parseDocM_single _ (toMarkdownText_no_newline a ha), parseBlockM_image a ha]
  | cons b bs ih =>
    intro h
    have ha := h a (List.mem_cons_self a (b :: bs))
    rw [List.map_cons, List.map_cons, serializeDoc_cons, serializeBlock_single]
    rw [show serializeInline (EInline.image a) = Image.toMarkdownText a from rfl]
    rw [parseDocM_sep _ _ (toMarkdownText_no_newline a ha), parseBlockM_image a ha]
    have htail := ih b fun x hx => h x (List.mem_cons_of_mem _ hx)
    rw [List.map_cons] at htail
    rw [htail]

/-- Claim C1 (amended): the value()/createDocument round trip does hold on
documents whose blocks serialize losslessly, here the documents of image
paragraphs with URL-safe src and newline-free, nonempty-or-absent alt. -/
theorem markdown_roundtrip_image_docs (as : List ImageAttrs) (hne : as ≠ [])
    (h : ∀ a ∈ as, losslessImage a = true) :
    parseDocM (serializeDoc (as.map fun a => EBlock.para [EInline.image a])) =
      as.map fun a => EBlock.para [EInline.image a] := by
  cases as with
  | nil => exact absurd rfl hne
  | cons a rest => exact roundtrip_image_cons rest a h

/-- Witness for C1 (amended) on a concrete two-image document. -/
theorem markdown_roundtrip_image_docs_witness :
    parseDocM (serializeDoc ([⟨"a.png", some "One"⟩, ⟨"b.png", none⟩].map
        fun a => EBlock.para [EInline.image a])) =
      ([⟨"a.png", some "One"⟩, ⟨"b.png", none⟩].map
        fun a => EBlock.para [EInline.image a]) :=
  markdown_roundtrip_image_docs [⟨"a.png", some "One"⟩, ⟨"b.png", none⟩]
    (by decide) (by decide)

/-! ### The embed node (src/nodes/Embed.tsx): Markdown round trip -/

structure EmbedAttrs where
  href : String
  deriving DecidableEq

namespace Embed

/-- Embed.toMarkdown: after state.ensureNewLine, writes
`[esc(href)](esc(href))` and then writes a blank line. -/
def toMarkdownText (href : String) : String :=
  "[" ++ escMd href ++ "](" ++ escMd href ++ ")" ++ "\n\n"

theorem toMarkdownEmbedText_data (href : String) :
    (toMarkdownText href).data =
      '[' :: (escMdList href.data ++
        ']' :: '(' :: (escMdList href.data ++ ')' :: '\n' :: ['\n'])) := by
  simp [toMarkdownText, escMd, String.data_append]

end Embed

structure MDTokenEmbed where
  href : String
  deriving DecidableEq

def mdEmbedAfterDest (matcher : String → Bool) (label : List Char) :
    Option (List Char × List Char) → Option MDTokenEmbed
  | none => none
  | some (dest, rest4) =>
    if rest4 = ['\n', '\n'] ∧ dest.all (fun c => !(c == ' ' || c == '\n')) ∧
        unescListMd label = unescListMd dest ∧ matcher ⟨unescListMd dest⟩ then
      some { href := ⟨unescListMd dest⟩ }
    else none

def mdEmbedAfterLabel (matcher : String → Bool) :
    Option (List Char × List Char) → Option MDTokenEmbed
  | none => none
  | some (label, rest2) =>
    match rest2 with
    | '(' :: rest3 => mdEmbedAfterDest matcher label (scanToDelim ')' rest3)
    | _ => none

/-- Modelled from the spec: the Markdown parser rule that turns a paragraph
consisting of a single self-referential link into an embed token is not
among the sources at hand; following the spec's description of
bidirectional serialization with embeds, it is modelled as the CommonMark
link rule (text to the first unescaped `]`, whitespace-free destination to
the first unescaped `)`), yielding an embed token carrying the destination
when the link's text equals its destination and a configured embed
descriptor matches it. -/
def mdTokenizeEmbed (matcher : String → Bool) (s : String) : Option MDTokenEmbed :=
  match s.data with
  | '[' :: rest => mdEmbedAfterLabel matcher (scanToDelim ']' rest)
  | _ => none

/-- Embed.parseMarkdown's getAttrs: the href attribute is read off the
token (the component and matches attributes carry no Markdown content). -/
def Embed.getAttrs (t : MDTokenEmbed) : EmbedAttrs := { href := t.href }

/-- Claim C4 (amended): Embed.toMarkdown writes `[h](h)` with h escaped in
both positions, followed by a blank line, and — when h stays within the
Markdown link grammar (no `)`, space or newline) and an embed descriptor
matches it — parsing the output reconstructs an embed whose href is h. -/
theorem embed_markdown_roundtrip (h : String) (matcher : String → Bool)
    (hsafe : ∀ c ∈ h.data, c ≠ ')' ∧ c ≠ ' ' ∧ c ≠ '\n')
    (hm : matcher h = true) :
    Embed.toMarkdownText h =
      "[" ++ escMd h ++ "](" ++ escMd h ++ ")" ++ "\n\n" ∧
    (mdTokenizeEmbed matcher (Embed.toMarkdownText h)).map Embed.getAttrs =
      some { href := h } := by
  refine ⟨rfl, ?_⟩
  rw [mdTokenizeEmbed, Embed.toMarkdownEmbedText_data h]
  change (mdEmbedAfterLabel matcher (scanToDelim ']'
    (escMdList h.data ++ ']' :: '(' :: (escMdList h.data ++ ')' :: '\n' :: ['\n'])))).map
      Embed.getAttrs = _
  rw [scanToDelim_esc (by decide) (by decide)]
  rw [mdEmbedAfterLabel]
  rw [show escMdList h.data ++ ')' :: '\n' :: ['\n'] =
        escMdList h.data ++ ')' :: ['\n', '\n'] from rfl]
  rw [scanToDelim_esc_plain (by decide) _ _ fun c hc => (hsafe c hc).1]
  rw [mdEmbedAfterDest]
  have hall : (escMdList h.data).all (fun c => !(c == ' ' || c == '\n')) = true := by
    rw [List.all_eq_true]
    intro c hc
    rcases mem_escMdList hc with h2 | h2
    · subst h2; decide
    · simp [(hsafe c h2).2.1, (hsafe c h2).2.2]
  have hun : (⟨unescListMd (escMdList h.data)⟩ : String) = h := by
    rw [unesc_escMdList, mk_data]
  rw [if_pos ⟨rfl, hall, rfl, by rw [hun]; exact hm⟩]
  simp [Embed.getAttrs, hun]

/-- Witness for C4 (amended) at a concrete href. -/
theorem embed_markdown_roundtrip_witness :
    Embed.toMarkdownText "https://x" =
      "[" ++ escMd "https://x" ++ "](" ++ escMd "https://x" ++ ")" ++ "\n\n" ∧
    (mdTokenizeEmbed (fun s => s == "https://x")
        (Embed.toMarkdownText "https://x")).map Embed.getAttrs =
      some { href := "https://x" } :=
  embed_markdown_roundtrip "https://x" (fun s => s == "https://x")
    (by decide) (by decide)

/-- Counterexample for C4 as stated: an href holding `)` breaks the link
grammar (esc leaves `)` unescaped), so parsing the serialized embed does
not reconstruct it, whatever descriptors are configured. -/
theorem embed_roundtrip_paren_counterexample :
    (mdTokenizeEmbed (fun _ => true) (Embed.toMarkdownText "a)b")).map Embed.getAttrs ≠
      some { href := "a)b" } := by decide

/-! ### The image upload plugin (nodes/Image): paste and drop handlers

The handlers return a boolean telling ProseMirror whether they claimed the
event; the document is only touched through insertFiles, so the outcome
records the position and files handed to it (none when it was not
invoked, in which case the editor state is left unchanged). -/

structure FileM where
  id : Nat
  deriving DecidableEq

/-- A clipboard item as the paste handler sees it: getAsFile() yields the
item's file or null. -/
structure ClipItem where
  asFile : Option FileM
  deriving DecidableEq

/-- The selection fields the paste handler consults. -/
structure SelM where
  frm : Nat
  toPos : Nat
  deriving DecidableEq

/-- tr.deleteSelection(): the mapped selection collapses to its start. -/
def SelM.deleteSelection (s : SelM) : SelM := { frm := s.frm, toPos := s.frm }

structure HandlerOutcome where
  handled : Bool
  insertedAt : Option (Nat × List FileM)
  deriving DecidableEq

/-- uploadPlugin's paste handler: return false if the editor is not
editable, if the event carries no clipboardData, or if no clipboard item is
a file; otherwise delete a non-empty selection, take the resulting
selection start, hand the files to insertFiles there, and return true. -/
def uploadPluginPaste (editable : Bool) (clipboardData : Option (List ClipItem))
    (sel : SelM) : HandlerOutcome :=
  if !editable then { handled := false, insertedAt := none }
  else
    match clipboardData with
    | none => { handled := false, insertedAt := none }
    | some items =>
      let files := items.filterMap (fun it => it.asFile)
      if files.length = 0 then { handled := false, insertedAt := none }
      else
        let sel2 := if sel.frm ≠ sel.toPos then SelM.deleteSelection sel else sel
        { handled := true, insertedAt := some (sel2.frm, files) }

/-- The clipboard items that are files, in order. -/
def pastedFiles (clipboardData : Option (List ClipItem)) : List FileM :=
  (clipboardData.getD []).filterMap (fun it => it.asFile)

/-- Claim C5: the paste handler returns false and performs no insertion
exactly in the three bail-out cases; otherwise it inserts exactly the
pasted files at the selection start left by deleting a non-empty selection,
and returns true. -/
theorem upload_paste_spec (editable : Bool) (cd : Option (List ClipItem)) (sel : SelM) :
    uploadPluginPaste editable cd sel =
      if editable = false ∨ cd = none ∨ pastedFiles cd = [] then
        { handled := false, insertedAt := none }
      else
        { handled := true, insertedAt := some (sel.frm, pastedFiles cd) } := by
  cases editable with
  | false => simp [uploadPluginPaste]
  | true =>
    cases cd with
    | none => simp [uploadPluginPaste, pastedFiles]
    | some items =>
      by_cases hf : items.filterMap (fun it => it.asFile) = []
      · simp [uploadPluginPaste, pastedFiles, hf]
      · have hlen : (items.filterMap (fun it => it.asFile)).length ≠ 0 := by
          simpa [List.length_eq_zero] using hf
        by_cases hs : sel.frm = sel.toPos <;>
          simp [uploadPluginPaste, pastedFiles, hf, hlen, hs, SelM.deleteSelection]

/-- uploadPlugin's drop handler: return false if the editor is not editable
or the drag event carries no files; otherwise resolve the document position
at the drop coordinates and, when one resolves, hand the files to
insertFiles there and return true (getDataTransferFiles is a repository
helper not among the sources at hand; per the spec it is modelled as
yielding the files carried by the drag event). -/
def uploadPluginDrop (editable : Bool) (eventFiles : List FileM)
    (posAtCoords : Option Nat) : HandlerOutcome :=
  if !editable then { handled := false, insertedAt := none }
  else if eventFiles.length = 0 then { handled := false, insertedAt := none }
  else
    match posAtCoords with
    | some result => { handled := true, insertedAt := some (result, eventFiles) }
    | none => { handled := false, insertedAt := none }

/-- Claim C6: the drop handler returns true exactly when the editor is
editable, at least one file is carried, and a position resolves at the drop
coordinates; it then inserts those files at that position, and in every
other case it performs no insertion. -/
theorem upload_drop_spec (editable : Bool) (files : List FileM) (pos : Option Nat) :
    ((uploadPluginDrop editable files pos).handled = true ↔
      (editable = true ∧ files ≠ [] ∧ pos.isSome = true)) ∧
    (uploadPluginDrop editable files pos).insertedAt =
      (if editable = true ∧ files ≠ [] then pos.map (fun p => (p, files)) else none) := by
  cases editable <;> cases pos <;> by_cases hf : files = [] <;>
    simp [uploadPluginDrop, hf, List.length_eq_zero]

/-! ### Top-level document blocks and the embed removal (src/nodes/Embed.tsx)

ProseMirror position arithmetic (third party) on a document of top-level
blocks: a block of content size n occupies n + 2 positions (one for each
boundary token); position 0 starts the document.  removeEmbed resolves the
position just inside the embed's DOM element, takes before() — the position
of the direct parent node —, sets a node selection there and deletes it. -/

inductive BlockNode where
  | heading (level : Nat) (text : String)
  | paragraph (text : String)
  | embedBlock (href : String)
  deriving DecidableEq

def BlockNode.nodeSize : BlockNode → Nat
  | heading _ t => t.length + 2
  | paragraph t => t.length + 2
  | embedBlock _ => 2

theorem BlockNode.nodeSize_pos (b : BlockNode) : 2 ≤ b.nodeSize := by
  cases b <;> simp [nodeSize]

/-- The position at which the i-th top-level block starts. -/
def docStart (doc : List BlockNode) (i : Nat) : Nat :=
  ((doc.take i).map BlockNode.nodeSize).sum

/-- view.posAtDOM(element, 0) for the embed's DOM element: the position just
inside the embed node at top-level index i. -/
def posAtDOMEmbed (doc : List BlockNode) (i : Nat) : Nat := docStart doc i + 1

def beforeAux : Nat → List BlockNode → Nat → Nat
  | off, [], _ => off
  | off, b :: bs, pos =>
    if pos < off + b.nodeSize then off else beforeAux (off + b.nodeSize) bs pos

/-- doc.resolve(pos).before(): the position immediately before the
top-level node containing pos — the direct parent of a position one level
down. -/
def resolveBefore (doc : List BlockNode) (pos : Nat) : Nat := beforeAux 0 doc pos

def nodeAfterAux : Nat → Nat → List BlockNode → Option BlockNode
  | _, _, [] => none
  | pos, off, b :: bs =>
    if off = pos then some b else nodeAfterAux pos (off + b.nodeSize) bs

/-- The top-level node starting exactly at pos (the node a NodeSelection at
pos selects). -/
def nodeAfter (doc : List BlockNode) (pos : Nat) : Option BlockNode :=
  nodeAfterAux pos 0 doc

def deleteRangeAux (frm toPos : Nat) : Nat → List BlockNode → List BlockNode
  | _, [] => []
  | off, b :: bs =>
    if frm ≤ off ∧ off + b.nodeSize ≤ toPos then deleteRangeAux frm toPos (off + b.nodeSize) bs
    else b :: deleteRangeAux frm toPos (off + b.nodeSize) bs

/-- tr.deleteSelection() on a node selection [frm, toPos): the blocks whose
span lies inside the range are removed. -/
def deleteRange (doc : List BlockNode) (frm toPos : Nat) : List BlockNode :=
  deleteRangeAux frm toPos 0 doc

namespace Embed

/-- parentSelection: resolve posAtDOM(element, 0) and take before(); the
node selection anchored there. -/
def parentSelectionPos (doc : List BlockNode) (i : Nat) : Nat :=
  resolveBefore doc (posAtDOMEmbed doc i)

/-- removeEmbed: set the selection to parentSelection and delete it. -/
def removeEmbed (doc : List BlockNode) (i : Nat) : List BlockNode :=
  let pos := parentSelectionPos doc i
  match nodeAfter doc pos with
  | some b => deleteRange doc pos (pos + b.nodeSize)
  | none => doc

/-- The component's onKeyUp: Delete and Backspace remove the embed. -/
def onKeyUp (key : String) (doc : List BlockNode) (i : Nat) : List BlockNode :=
  if key = "Delete" ∨ key = "Backspace" then removeEmbed doc i else doc

end Embed

theorem docStart_cons (b : BlockNode) (bs : List BlockNode) (i : Nat) :
    docStart (b :: bs) (i + 1) = b.nodeSize + docStart bs i := by
  simp [docStart, List.take_succ_cons]

theorem beforeAux_start (doc : List BlockNode) (i off : Nat) (hi : i < doc.length) :
    beforeAux off doc (off + docStart doc i + 1) = off + docStart doc i := by
  induction doc generalizing i off with
  | nil => simp at hi
  | cons b bs ih =>
    cases i with
    | zero =>
      rw [beforeAux]
      have h2 := b.nodeSize_pos
      have hc : off + docStart (b :: bs) 0 + 1 < off + b.nodeSize := by
        simp only [docStart, List.take_zero, List.map_nil, List.sum_nil]
        omega
      rw [if_pos hc]
      simp [docStart]
    | succ j =>
      rw [beforeAux]
      have h2 := b.nodeSize_pos
      rw [docStart_cons]
      have hlt : ¬ (off + (b.nodeSize + docStart bs j) + 1 < off + b.nodeSize) := by omega
      rw [if_neg hlt]
      have := ih j (off + b.nodeSize) (by simpa using hi)
      calc beforeAux (off + b.nodeSize) bs (off + (b.nodeSize + docStart bs j) + 1)
          = beforeAux (off + b.nodeSize) bs ((off + b.nodeSize) + docStart bs j + 1) := by
            ring_nf
        _ = (off + b.nodeSize) + docStart bs j := this
        _ = off + (b.nodeSize + docStart bs j) := by omega

theorem nodeAfterAux_start (doc : List BlockNode) (i off : Nat) (hi : i < doc.length) :
    nodeAfterAux (off + docStart doc i) off doc = doc.get? i := by
  induction doc generalizing i off with
  | nil => simp at hi
  | cons b bs ih =>
    cases i with
    | zero =>
      rw [nodeAfterAux]
      simp [docStart]
    | succ j =>
      rw [nodeAfterAux]
      have h2 := b.nodeSize_pos
      rw [docStart_cons]
      have hne : ¬ (off = off + (b.nodeSize + docStart bs j)) := by omega
      rw [if_neg hne]
      have := ih j (off + b.nodeSize) (by simpa using hi)
      calc nodeAfterAux (off + (b.nodeSize + docStart bs j)) (off + b.nodeSize) bs
          = nodeAfterAux ((off + b.nodeSize) + docStart bs j) (off + b.nodeSize) bs := by
            ring_nf
        _ = bs.get? j := this
        _ = (b :: bs).get? (j + 1) := rfl

theorem deleteRangeAux_past (bs : List BlockNode) (frm toPos off : Nat)
    (h : toPos ≤ off) : deleteRangeAux frm toPos off bs = bs := by
  induction bs generalizing off with
  | nil => rfl
  | cons b bs ih =>
    rw [deleteRangeAux]
    have h2 := b.nodeSize_pos
    have : ¬ (frm ≤ off ∧ off + b.nodeSize ≤ toPos) := by omega
    rw [if_neg this, ih _ (by omega)]

theorem deleteRangeAux_at (doc : List BlockNode) (i off : Nat) (b : BlockNode)
    (hb : doc.get? i = some b) :
    deleteRangeAux (off + docStart doc i) (off + docStart doc i + b.nodeSize) off doc =
      doc.take i ++ doc.drop (i + 1) := by
  induction doc generalizing i off with
  | nil => simp at hb
  | cons a as ih =>
    cases i with
    | zero =>
      have hab : a = b := by simpa using hb
      subst hab
      rw [deleteRangeAux]
      have hcond : (off + docStart (a :: as) 0 ≤ off ∧
          off + a.nodeSize ≤ off + docStart (a :: as) 0 + a.nodeSize) := by
        simp only [docStart, List.take_zero, List.map_nil, List.sum_nil]
        omega
      rw [if_pos hcond]
      have : off + docStart (a :: as) 0 + a.nodeSize ≤ off + a.nodeSize := by
        simp only [docStart, List.take_zero, List.map_nil, List.sum_nil]
        omega
      rw [deleteRangeAux_past as _ _ _ this]
      simp
    | succ j =>
      have hbj : as.get? j = some b := by simpa using hb
      rw [deleteRangeAux]
      have h2 := a.nodeSize_pos
      have hbp := b.nodeSize_pos
      rw [docStart_cons]
      have hcond : ¬ (off + (a.nodeSize + docStart as j) ≤ off ∧
          off + a.nodeSize ≤ off + (a.nodeSize + docStart as j) + b.nodeSize) := by
        intro hc
        have := hc.1
        omega
      rw [if_neg hcond]
      have := ih j (off + a.nodeSize) hbj
      have heq : deleteRangeAux (off + (a.nodeSize + docStart as j))
            (off + (a.nodeSize + docStart as j) + b.nodeSize) (off + a.nodeSize) as =
          as.take j ++ as.drop (j + 1) := by
        calc deleteRangeAux (off + (a.nodeSize + docStart as j))
              (off + (a.nodeSize + docStart as j) + b.nodeSize) (off + a.nodeSize) as
            = deleteRangeAux ((off + a.nodeSize) + docStart as j)
              (((off + a.nodeSize) + docStart as j) + b.nodeSize) (off + a.nodeSize) as := by
              ring_nf
          _ = as.take j ++ as.drop (j + 1) := this
      rw [heq]
      rfl

/-- Claim C7: when Delete or Backspace is released on the embed at top-level
index i, the dispatched transaction selects the node at the direct parent
position and deletes it: exactly the embed node is removed and every other
node keeps its place (those before i unchanged, those after shifted down
by one). -/
theorem embed_keyup_removes_exactly (doc : List BlockNode) (i : Nat) (href : String)
    (key : String) (hb : doc.get? i = some (BlockNode.embedBlock href))
    (hk : key = "Delete" ∨ key = "Backspace") :
    Embed.onKeyUp key doc i = doc.take i ++ doc.drop (i + 1) ∧
    (∀ j, j < i → (Embed.onKeyUp key doc i).get? j = doc.get? j) ∧
    (∀ j, i ≤ j → (Embed.onKeyUp key doc i).get? j = doc.get? (j + 1)) ∧
    (Embed.onKeyUp key doc i).length = doc.length - 1 := by
  have hlen : i < doc.length := by
    by_contra hc
    rw [List.get?_eq_none.2 (by omega)] at hb
    exact Option.noConfusion hb
  have hmain : Embed.onKeyUp key doc i = doc.take i ++ doc.drop (i + 1) := by
    rw [Embed.onKeyUp, if_pos hk, Embed.removeEmbed]
    have hpar : Embed.parentSelectionPos doc i = docStart doc i := by
      rw [Embed.parentSelectionPos, posAtDOMEmbed, resolveBefore]
      have := beforeAux_start doc i 0 hlen
      simpa using this
    rw [hpar]
    have hna : nodeAfter doc (docStart doc i) = some (BlockNode.embedBlock href) := by
      rw [nodeAfter]
      have := nodeAfterAux_start doc i 0 hlen
      simp only [Nat.zero_add] at this
      rw [this, hb]
    rw [hna]
    show deleteRange doc (docStart doc i)
        (docStart doc i + (BlockNode.embedBlock href).nodeSize) = _
    rw [deleteRange]
    have := deleteRangeAux_at doc i 0 (BlockNode.embedBlock href) hb
    simpa using this
  refine ⟨hmain, ?_, ?_, ?_⟩
  · intro j hj
    rw [hmain]
    rw [List.get?_append (by simp [List.length_take]; omega)]
    exact List.get?_take hj
  · intro j hj
    rw [hmain]
    have hti : (doc.take i).length = i := List.length_take_of_le (by omega)
    rw [List.get?_append_right (by omega)]
    rw [hti, List.get?_drop]
    congr 1
    omega
  · rw [hmain]
    simp [List.length_take, List.length_drop]
    omega

/-- Witness for C7 on a three-block document. -/
theorem embed_keyup_removes_exactly_witness :
    Embed.onKeyUp "Backspace" [BlockNode.paragraph "hi", BlockNode.embedBlock "u",
        BlockNode.paragraph "yo"] 1 =
      ([BlockNode.paragraph "hi", BlockNode.embedBlock "u",
        BlockNode.paragraph "yo"].take 1 ++
       [BlockNode.paragraph "hi", BlockNode.embedBlock "u",
        BlockNode.paragraph "yo"].drop 2) ∧
    (∀ j, j < 1 → (Embed.onKeyUp "Backspace" [BlockNode.paragraph "hi",
        BlockNode.embedBlock "u", BlockNode.paragraph "yo"] 1).get? j =
      [BlockNode.paragraph "hi", BlockNode.embedBlock "u",
        BlockNode.paragraph "yo"].get? j) ∧
    (∀ j, 1 ≤ j → (Embed.onKeyUp "Backspace" [BlockNode.paragraph "hi",
        BlockNode.embedBlock "u", BlockNode.paragraph "yo"] 1).get? j =
      [BlockNode.paragraph "hi", BlockNode.embedBlock "u",
        BlockNode.paragraph "yo"].get? (j + 1)) ∧
    (Embed.onKeyUp "Backspace" [BlockNode.paragraph "hi", BlockNode.embedBlock "u",
        BlockNode.paragraph "yo"] 1).length =
      [BlockNode.paragraph "hi", BlockNode.embedBlock "u",
        BlockNode.paragraph "yo"].length - 1 :=
  embed_keyup_removes_exactly [BlockNode.paragraph "hi", BlockNode.embedBlock "u",
    BlockNode.paragraph "yo"] 1 "u" "Backspace" (by decide) (Or.inr rfl)

/-! ### Extension assembly: init(), createExtensions(), createSchema()

lib/ExtensionManager is not among the sources at hand; per the spec it
composes node/mark/plugin definitions into a single schema, keymap set,
input-rule set and command table, collecting each extension's contribution
in extension order. Payloads (schema specs, key bindings, input rules,
command names) are opaque tokens here. -/

inductive ExtKind where
  | node
  | mark
  | extension
  deriving DecidableEq

structure ExtSpec where
  name : String
  kind : ExtKind
  schemaSpec : String
  keys : List String
  rules : List String
  cmds : List String
  deriving DecidableEq

/-- Modelled from the spec: ExtensionManager.nodes — the node specs of the
node-kind extensions, keyed by extension name, in order. -/
def managerNodes (exts : List ExtSpec) : List (String × String) :=
  (exts.filter (fun e => e.kind == ExtKind.node)).map (fun e => (e.name, e.schemaSpec))

/-- Modelled from the spec: ExtensionManager.marks. -/
def managerMarks (exts : List ExtSpec) : List (String × String) :=
  (exts.filter (fun e => e.kind == ExtKind.mark)).map (fun e => (e.name, e.schemaSpec))

/-- Modelled from the spec: ExtensionManager.keymaps — one keymap per
extension that binds keys, in extension order. -/
def managerKeymaps (exts : List ExtSpec) : List (List String) :=
  (exts.filter (fun e => !e.keys.isEmpty)).map (fun e => e.keys)

/-- Modelled from the spec: ExtensionManager.inputRules — the concatenated
rules of every extension, in extension order. -/
def managerInputRules (exts : List ExtSpec) : List String :=
  (exts.map (fun e => e.rules)).flatten

/-- Modelled from the spec: ExtensionManager.commands — the command table,
every extension's commands tagged with the contributing extension. -/
def managerCommands (exts : List ExtSpec) : List (String × String) :=
  (exts.map (fun e => e.cmds.map (fun c => (e.name, c)))).flatten

structure SchemaM where
  nodes : List (String × String)
  marks : List (String × String)
  deriving DecidableEq

/-- createSchema: new Schema({ nodes, marks }). -/
def createSchema (nodes marks : List (String × String)) : SchemaM :=
  { nodes := nodes, marks := marks }

def mkNodeExt (n : String) : ExtSpec :=
  { name := n, kind := ExtKind.node, schemaSpec := "spec:" ++ n
  , keys := [], rules := [], cmds := [] }

def mkMarkExt (n : String) : ExtSpec :=
  { name := n, kind := ExtKind.mark, schemaSpec := "spec:" ++ n
  , keys := [], rules := [], cmds := [] }

def mkPluginExt (n : String) : ExtSpec :=
  { name := n, kind := ExtKind.extension, schemaSpec := ""
  , keys := [], rules := [], cmds := [] }

/-- The built-in extensions instantiated by createExtensions, in source
order (Doc through Placeholder). The names of classes whose files are not
among the sources are modelled; the payload contributions of built-ins are
left opaque, the assembly theorem quantifying over the props extensions. -/
def builtInExtensions : List ExtSpec :=
  [ mkNodeExt "doc", mkNodeExt "text", mkNodeExt "paragraph",
    mkNodeExt "blockquote", mkNodeExt "bullet_list", mkNodeExt "code_block",
    mkNodeExt "code_fence", mkNodeExt "checkbox_list", mkNodeExt "checkbox_item",
    mkNodeExt "embed", mkNodeExt "list_item", mkNodeExt "heading",
    mkNodeExt "hr", mkNodeExt "image", mkNodeExt "table", mkNodeExt "td",
    mkNodeExt "th", mkNodeExt "tr",
    mkMarkExt "strong", mkMarkExt "code_inline", mkMarkExt "highlight",
    mkMarkExt "em", mkMarkExt "link", mkMarkExt "strikethrough",
    mkNodeExt "ordered_list",
    mkPluginExt "history", mkPluginExt "smart_text", mkPluginExt "trailing_node",
    mkPluginExt "markdown-paste", mkPluginExt "keys",
    mkPluginExt "blockmenutrigger", mkPluginExt "placeholder" ]

/-- createExtensions: the built-in list followed by the props extensions. -/
def createExtensions (props : List ExtSpec) : List ExtSpec :=
  builtInExtensions ++ props

structure EditorM where
  extensions : List ExtSpec
  nodes : List (String × String)
  marks : List (String × String)
  schema : SchemaM
  keymaps : List (List String)
  inputRules : List String
  commands : List (String × String)
  deriving DecidableEq

/-- init(): this.extensions = createExtensions(); nodes/marks collected from
the manager; schema from nodes and marks; keymaps, inputRules and commands
from the manager (plugins, serializer, parser, nodeViews and the view hold
no schema content and are omitted). -/
def Editor.init (props : List ExtSpec) : EditorM :=
  let exts := createExtensions props
  let nodes := managerNodes exts
  let marks := managerMarks exts
  { extensions := exts
  , nodes := nodes
  , marks := marks
  , schema := createSchema nodes marks
  , keymaps := managerKeymaps exts
  , inputRules := managerInputRules exts
  , commands := managerCommands exts }

/-- Claim C2: after init(), the editor holds the extension list built-ins
first then props, a single schema whose node and mark specs are exactly
those collected from that list, and a command table, keymap list and
input-rule list assembled from the contributions of every extension. -/
theorem init_assembles_extensions (props : List ExtSpec) :
    (Editor.init props).extensions = builtInExtensions ++ props ∧
    (Editor.init props).schema =
      createSchema (managerNodes (builtInExtensions ++ props))
        (managerMarks (builtInExtensions ++ props)) ∧
    (Editor.init props).keymaps = managerKeymaps (builtInExtensions ++ props) ∧
    (Editor.init props).inputRules = managerInputRules (builtInExtensions ++ props) ∧
    (Editor.init props).commands = managerCommands (builtInExtensions ++ props) ∧
    (∀ e ∈ createExtensions props,
      (e.kind = ExtKind.node → (e.name, e.schemaSpec) ∈ (Editor.init props).schema.nodes) ∧
      (e.kind = ExtKind.mark → (e.name, e.schemaSpec) ∈ (Editor.init props).schema.marks) ∧
      (e.keys ≠ [] → e.keys ∈ (Editor.init props).keymaps) ∧
      (∀ r ∈ e.rules, r ∈ (Editor.init props).inputRules) ∧
      (∀ c ∈ e.cmds, (e.name, c) ∈ (Editor.init props).commands)) := by
  refine ⟨rfl, rfl, rfl, rfl, rfl, ?_⟩
  intro e he
  refine ⟨?_, ?_, ?_, ?_, ?_⟩
  · intro hk
    show (e.name, e.schemaSpec) ∈ managerNodes (createExtensions props)
    exact List.mem_map_of_mem _ (List.mem_filter.2 ⟨he, by simp [hk]⟩)
  · intro hk
    show (e.name, e.schemaSpec) ∈ managerMarks (createExtensions props)
    exact List.mem_map_of_mem _ (List.mem_filter.2 ⟨he, by simp [hk]⟩)
  · intro hkeys
    show e.keys ∈ managerKeymaps (createExtensions props)
    exact List.mem_map_of_mem _ (List.mem_filter.2 ⟨he, by simp [hkeys]⟩)
  · intro r hr
    show r ∈ managerInputRules (createExtensions props)
    exact List.mem_flatten.2 ⟨e.rules, List.mem_map_of_mem _ he, hr⟩
  · intro c hc
    show (e.name, c) ∈ managerCommands (createExtensions props)
    exact List.mem_flatten.2 ⟨_, List.mem_map_of_mem _ he, List.mem_map_of_mem _ hc⟩

/-- Witness for C2 with one props extension contributing a node spec, keys,
a rule and a command. -/
theorem init_assembles_extensions_witness :
    ((Editor.init [⟨"custom", ExtKind.node, "spec:custom", ["Mod-k"], ["rule1"], ["cmd1"]⟩]).extensions =
      builtInExtensions ++ [⟨"custom", ExtKind.node, "spec:custom", ["Mod-k"], ["rule1"], ["cmd1"]⟩]) ∧
    ((Editor.init [⟨"custom", ExtKind.node, "spec:custom", ["Mod-k"], ["rule1"], ["cmd1"]⟩]).schema =
      createSchema
        (managerNodes (builtInExtensions ++ [⟨"custom", ExtKind.node, "spec:custom", ["Mod-k"], ["rule1"], ["cmd1"]⟩]))
        (managerMarks (builtInExtensions ++ [⟨"custom", ExtKind.node, "spec:custom", ["Mod-k"], ["rule1"], ["cmd1"]⟩]))) ∧
    ((Editor.init [⟨"custom", ExtKind.node, "spec:custom", ["Mod-k"], ["rule1"], ["cmd1"]⟩]).keymaps =
      managerKeymaps (builtInExtensions ++ [⟨"custom", ExtKind.node, "spec:custom", ["Mod-k"], ["rule1"], ["cmd1"]⟩])) ∧
    ((Editor.init [⟨"custom", ExtKind.node, "spec:custom", ["Mod-k"], ["rule1"], ["cmd1"]⟩]).inputRules =
      managerInputRules (builtInExtensions ++ [⟨"custom", ExtKind.node, "spec:custom", ["Mod-k"], ["rule1"], ["cmd1"]⟩])) ∧
    ((Editor.init [⟨"custom", ExtKind.node, "spec:custom", ["Mod-k"], ["rule1"], ["cmd1"]⟩]).commands =
      managerCommands (builtInExtensions ++ [⟨"custom", ExtKind.node, "spec:custom", ["Mod-k"], ["rule1"], ["cmd1"]⟩])) ∧
    (∀ e ∈ createExtensions [⟨"custom", ExtKind.node, "spec:custom", ["Mod-k"], ["rule1"], ["cmd1"]⟩],
      (e.kind = ExtKind.node →
        (e.name, e.schemaSpec) ∈ (Editor.init [⟨"custom", ExtKind.node, "spec:custom", ["Mod-k"], ["rule1"], ["cmd1"]⟩]).schema.nodes) ∧
      (e.kind = ExtKind.mark →
        (e.name, e.schemaSpec) ∈ (Editor.init [⟨"custom", ExtKind.node, "spec:custom", ["Mod-k"], ["rule1"], ["cmd1"]⟩]).schema.marks) ∧
      (e.keys ≠ [] →
        e.keys ∈ (Editor.init [⟨"custom", ExtKind.node, "spec:custom", ["Mod-k"], ["rule1"], ["cmd1"]⟩]).keymaps) ∧
      (∀ r ∈ e.rules,
        r ∈ (Editor.init [⟨"custom", ExtKind.node, "spec:custom", ["Mod-k"], ["rule1"], ["cmd1"]⟩]).inputRules) ∧
      (∀ c ∈ e.cmds,
        (e.name, c) ∈ (Editor.init [⟨"custom", ExtKind.node, "spec:custom", ["Mod-k"], ["rule1"], ["cmd1"]⟩]).commands)) :=
  init_assembles_extensions [⟨"custom", ExtKind.node, "spec:custom", ["Mod-k"], ["rule1"], ["cmd1"]⟩]

/-! ### dispatchTransaction and the onChange callback (createView,
handleChange) -/

structure TrM where
  docChanged : Bool
  deriving DecidableEq

/-- value(): serializer.serialize(view.state.doc). -/
def editorValue (d : EDoc) : String := serializeDoc d

/-- handleChange: when not readOnly, hand onChange the thunk
() => this.value() — a function of whatever document the view holds when
it is called (onChange is a required prop and is modelled as present). -/
def handleChange (readOnly : Bool) : Option (EDoc → String) :=
  if readOnly then none else some (fun d => editorValue d)

structure DispatchOut where
  state : EDoc
  callback : Option (EDoc → String)

/-- dispatchTransaction: apply the transaction, update the view state, and
when some applied transaction changed the doc, run handleChange. -/
def dispatchTransaction (readOnly : Bool) (applied : EDoc) (trs : List TrM) :
    DispatchOut :=
  { state := applied
  , callback :=
      if trs.any (fun t => t.docChanged) then handleChange readOnly else none }

/-- Claim C9: onChange is never invoked while readOnly; with readOnly false
it is invoked exactly when some applied transaction changed the document;
and the thunk it receives serializes the document current when the thunk is
called. -/
theorem onchange_dispatch_spec (readOnly : Bool) (applied : EDoc) (trs : List TrM) :
    (dispatchTransaction readOnly applied trs).state = applied ∧
    (dispatchTransaction readOnly applied trs).callback =
      (if trs.any (fun t => t.docChanged) && !readOnly then some editorValue else none) ∧
    (∀ f, (dispatchTransaction readOnly applied trs).callback = some f →
      ∀ d : EDoc, f d = serializeDoc d) := by
  refine ⟨rfl, ?_, ?_⟩
  · cases readOnly <;> cases h : trs.any (fun t => t.docChanged) <;>
      simp [dispatchTransaction, handleChange, h]
  · intro f hf d
    cases readOnly <;> cases h : trs.any (fun t => t.docChanged) <;>
      simp [dispatchTransaction, handleChange, h] at hf
    rw [← hf]
    rfl

/-- Witness for C9: a document-changing transaction with readOnly false
invokes the callback, and the callback serializes the current document. -/
theorem onchange_dispatch_spec_witness :
    ((dispatchTransaction false [] [⟨true⟩]).state = []) ∧
    ((dispatchTransaction false [] [⟨true⟩]).callback =
      (if [TrM.mk true].any (fun t => t.docChanged) && !false then some editorValue
       else none)) ∧
    (∀ f, (dispatchTransaction false [] [⟨true⟩]).callback = some f →
      ∀ d : EDoc, f d = serializeDoc d) :=
  ⟨(onchange_dispatch_spec false [] [⟨true⟩]).1,
   (onchange_dispatch_spec false [] [⟨true⟩]).2.1,
   (onchange_dispatch_spec false [] [⟨true⟩]).2.2⟩

/-! ### Decimal printing (JS String(n), used by the heading slug index) -/

def natDigitsF : Nat → Nat → List Nat
  | 0, _ => []
  | fuel + 1, n => if n < 10 then [n] else (n % 10) :: natDigitsF fuel (n / 10)

/-- The decimal digits of n, least significant first. -/
def natDigits (n : Nat) : List Nat := natDigitsF (n + 1) n

def digitsVal : List Nat → Nat
  | [] => 0
  | d :: ds => d + 10 * digitsVal ds

theorem digitsVal_natDigitsF (fuel : Nat) :
    ∀ n, n < fuel → digitsVal (natDigitsF fuel n) = n := by
  induction fuel with
  | zero => intro n hn; omega
  | succ f ih =>
    intro n hn
    rw [natDigitsF]
    by_cases h : n < 10
    · simp [h, digitsVal]
    · rw [if_neg h, digitsVal, ih (n / 10) (by omega)]
      omega

theorem digitsVal_natDigits (n : Nat) : digitsVal (natDigits n) = n :=
  digitsVal_natDigitsF (n + 1) n (by omega)

theorem natDigits_inj {a b : Nat} (h : natDigits a = natDigits b) : a = b := by
  have ha := digitsVal_natDigits a
  rw [h, digitsVal_natDigits] at ha
  omega

theorem natDigits_ne_nil (n : Nat) : natDigits n ≠ [] := by
  rw [natDigits, natDigitsF]
  by_cases h : n < 10 <;> simp [h]

theorem natDigitsF_lt10 (fuel : Nat) :
    ∀ n, n < fuel → ∀ d ∈ natDigitsF fuel n, d < 10 := by
  induction fuel with
  | zero => intro n hn; omega
  | succ f ih =>
    intro n hn d hd
    rw [natDigitsF] at hd
    by_cases h : n < 10
    · simp [h] at hd
      omega
    · rw [if_neg h] at hd
      rcases List.mem_cons.1 hd with h2 | h2
      · subst h2; exact Nat.mod_lt _ (by omega)
      · exact ih (n / 10) (by omega) d h2

theorem natDigits_lt10 (n : Nat) : ∀ d ∈ natDigits n, d < 10 :=
  natDigitsF_lt10 (n + 1) n (by omega)

/-- JS String(n): the decimal digits, most significant first. -/
def natToStr (n : Nat) : String := ⟨(natDigits n).reverse.map Nat.digitChar⟩

theorem digitChar_inj_lt10 :
    ∀ a, a < 10 → ∀ b, b < 10 → Nat.digitChar a = Nat.digitChar b → a = b := by
  decide

theorem digitChar_ne_dash : ∀ a, a < 10 → Nat.digitChar a ≠ '-' := by decide

theorem map_digitChar_inj (l1 : List Nat) :
    ∀ l2, (∀ d ∈ l1, d < 10) → (∀ d ∈ l2, d < 10) →
      l1.map Nat.digitChar = l2.map Nat.digitChar → l1 = l2 := by
  induction l1 with
  | nil =>
    intro l2 _ _ h
    cases l2 with
    | nil => rfl
    | cons b bs => simp at h
  | cons a as ih =>
    intro l2 h1 h2 h
    cases l2 with
    | nil => simp at h
    | cons b bs =>
      simp only [List.map_cons, List.cons.injEq] at h
      have hab := digitChar_inj_lt10 a (h1 a (by simp)) b (h2 b (by simp)) h.1
      have htl := ih bs (fun d hd => h1 d (by simp [hd])) (fun d hd => h2 d (by simp [hd])) h.2
      rw [hab, htl]

theorem natToStr_inj {a b : Nat} (h : natToStr a = natToStr b) : a = b := by
  rw [natToStr, natToStr] at h
  have hd : (natDigits a).reverse.map Nat.digitChar =
      (natDigits b).reverse.map Nat.digitChar := congrArg String.data h
  have hrev := map_digitChar_inj _ _
    (fun d hd2 => natDigits_lt10 a d (List.mem_reverse.1 hd2))
    (fun d hd2 => natDigits_lt10 b d (List.mem_reverse.1 hd2)) hd
  exact natDigits_inj (List.reverse_injective hrev)

theorem natToStr_no_dash (n : Nat) : ∀ c ∈ (natToStr n).data, c ≠ '-' := by
  intro c hc
  obtain ⟨d, hd, hcd⟩ := List.mem_map.1 hc
  rw [← hcd]
  exact digitChar_ne_dash d (natDigits_lt10 n d (List.mem_reverse.1 hd))

theorem natToStr_ne_empty (n : Nat) : natToStr n ≠ "" := by
  intro h
  have hd : ((natDigits n).reverse.map Nat.digitChar) = [] := congrArg String.data h
  simp only [List.map_eq_nil_iff, List.reverse_eq_nil_iff] at hd
  exact natDigits_ne_nil n hd

/-! ### getHeadings and the heading slug deduplication -/

/-- Modelled from the spec: lib/headingToSlug slugifies the heading's text
content (the slugify step, also not among the sources, is modelled as
lowercasing and turning spaces into dashes). -/
def slugOf (s : String) : String :=
  ⟨s.data.map (fun c => if c = ' ' then '-' else c.toLower)⟩

/-- Modelled from the spec: headingToSlug(node, index) — the slug itself for
index 0, otherwise the slug with "-index" appended. -/
def headingToSlug (text : String) (index : Nat) : String :=
  if index = 0 then slugOf text else slugOf text ++ "-" ++ natToStr index

structure HeadingInfo where
  title : String
  level : Nat
  id : String
  deriving DecidableEq

/-- previouslySeen[slug]: plain-object lookup. -/
def seenGet : List (String × Nat) → String → Option Nat
  | [], _ => none
  | p :: ps, s => if p.1 == s then some p.2 else seenGet ps s

/-- previouslySeen[slug] = n: plain-object update. -/
def seenSet : List (String × Nat) → String → Nat → List (String × Nat)
  | [], s, n => [(s, n)]
  | p :: ps, s, n => if p.1 == s then (s, n) :: ps else p :: seenSet ps s n

/-- The id chosen for a heading given previouslySeen[slug]: the slug, unless
the count is positive, in which case headingToSlug(node, count). -/
def headingIdOf (t : String) (prev : Option Nat) : String :=
  match prev with
  | some k => if k > 0 then headingToSlug t k else headingToSlug t 0
  | none => headingToSlug t 0

/-- previouslySeen[slug] after the heading: incremented when defined, else 1. -/
def bumpCount (prev : Option Nat) : Nat :=
  match prev with
  | some k => k + 1
  | none => 1

def getHeadingsAux : List (String × Nat) → List BlockNode → List HeadingInfo
  | _, [] => []
  | seen, BlockNode.heading lv t :: bs =>
    { title := t, level := lv
    , id := headingIdOf t (seenGet seen (headingToSlug t 0)) } ::
      getHeadingsAux
        (seenSet seen (headingToSlug t 0)
          (bumpCount (seenGet seen (headingToSlug t 0)))) bs
  | seen, _ :: bs => getHeadingsAux seen bs

/-- getHeadings: walk the top-level nodes, collect title, level and a
slug-derived id per heading, deduplicating via previouslySeen. -/
def getHeadings (doc : List BlockNode) : List HeadingInfo :=
  getHeadingsAux [] doc

/-- The top-level headings of the document, in order, as (level, text). -/
def headingEntries (doc : List BlockNode) : List (Nat × String) :=
  doc.filterMap (fun b =>
    match b with
    | BlockNode.heading lv t => some (lv, t)
    | _ => none)

/-- The claim's id assignment, stated directly: the k-th heading producing a
given slug (k counting earlier headings with that slug) gets the slug when
k = 0 and the slug with the occurrence count appended otherwise. -/
def refIds (prev : List String) : List (Nat × String) → List HeadingInfo
  | [] => []
  | (lv, t) :: rest =>
    { title := t, level := lv
    , id := if prev.countP (fun u => slugOf u == slugOf t) = 0 then slugOf t
            else headingToSlug t (prev.countP (fun u => slugOf u == slugOf t)) } ::
      refIds (prev ++ [t]) rest

theorem seenGet_seenSet (m : List (String × Nat)) (s s2 : String) (n : Nat) :
    seenGet (seenSet m s n) s2 = if s2 = s then some n else seenGet m s2 := by
  induction m with
  | nil =>
    by_cases h : s2 = s
    · subst h
      simp [seenSet, seenGet]
    · have hb : (s == s2) = false := by
        simp only [beq_eq_false_iff_ne, ne_eq]
        exact fun he => h he.symm
      simp [seenSet, seenGet, hb, h]
  | cons p ps ih =>
    by_cases hp : p.1 == s
    · have hps : p.1 = s := by simpa using hp
      by_cases h : s2 = s
      · subst h
        simp [seenSet, hp, seenGet]
      · have hb : (s == s2) = false := by
          simp only [beq_eq_false_iff_ne, ne_eq]
          exact fun he => h he.symm
        have hb2 : (p.1 == s2) = false := by
          rw [hps]
          exact hb
        simp [seenSet, hp, seenGet, hb, hb2, h]
    · by_cases h2 : p.1 == s2
      · have hs2 : ¬ (s2 = s) := by
          intro he
          apply absurd h2
          simp only [Bool.not_eq_true, beq_eq_false_iff_ne, ne_eq]
          intro he2
          exact absurd (by rw [he2, he] : p.1 = s) (by simpa using hp)
        simp [seenSet, hp, seenGet, h2, hs2]
      · simp only [seenSet, hp, if_false, Bool.false_eq_true]
        rw [seenGet]
        simp only [h2, if_false, Bool.false_eq_true]
        rw [ih]
        by_cases h : s2 = s
        · simp [h]
        · simp [h, seenGet, h2]

theorem headingToSlug_zero (t : String) : headingToSlug t 0 = slugOf t := by
  simp [headingToSlug]

theorem getHeadingsAux_spec (bs : List BlockNode) :
    ∀ (seen : List (String × Nat)) (prev : List String),
    (∀ s, seenGet seen s =
      if prev.countP (fun u => slugOf u == s) = 0 then none
      else some (prev.countP (fun u => slugOf u == s))) →
    getHeadingsAux seen bs = refIds prev (headingEntries bs) := by
  induction bs with
  | nil => intro seen prev _; simp [getHeadingsAux, headingEntries, refIds]
  | cons b rest ih =>
    intro seen prev hinv
    cases b with
    | paragraph t =>
      simp only [getHeadingsAux, headingEntries, List.filterMap_cons]
      exact ih seen prev hinv
    | embedBlock h =>
      simp only [getHeadingsAux, headingEntries, List.filterMap_cons]
      exact ih seen prev hinv
    | heading lv t =>
      simp only [getHeadingsAux, headingEntries, List.filterMap_cons, refIds]
      have hk := hinv (headingToSlug t 0)
      rw [headingToSlug_zero] at hk
      refine congrArg₂ List.cons ?_ ?_
      · rw [headingToSlug_zero, hk]
        by_cases h0 : prev.countP (fun u => slugOf u == slugOf t) = 0
        · simp [h0, headingIdOf, headingToSlug_zero]
        · simp only [h0, if_neg h0, if_false]
          simp [headingIdOf, Nat.pos_of_ne_zero h0]
      · rw [← headingEntries]
        apply ih
        intro s
        rw [headingToSlug_zero, hk, seenGet_seenSet]
        by_cases hs : s = slugOf t
        · subst hs
          rw [if_pos rfl, List.countP_append]
          have h1 : List.countP (fun u => slugOf u == slugOf t) [t] = 1 := by
            simp [List.countP_cons]
          rw [h1]
          have h2 : ¬ (List.countP (fun u => slugOf u == slugOf t) prev + 1 = 0) := by
            omega
          rw [if_neg h2]
          by_cases h0 : List.countP (fun u => slugOf u == slugOf t) prev = 0
          · rw [if_pos h0, h0]
            rfl
          · rw [if_neg h0]
            rfl
        · have hb : (slugOf t == s) = false := by
            simp only [beq_eq_false_iff_ne, ne_eq]
            exact fun he => hs he.symm
          rw [if_neg hs, List.countP_append]
          have h1 : List.countP (fun u => slugOf u == s) [t] = 0 := by
            simp [List.countP_cons, hb]
          rw [h1, Nat.add_zero]
          exact hinv s

theorem getHeadings_eq_refIds (doc : List BlockNode) :
    getHeadings doc = refIds [] (headingEntries doc) :=
  getHeadingsAux_spec doc [] [] (fun s => by simp [seenGet])

/-- The id shape underlying both branches of the assignment. -/
def idOf (s : String) (k : Nat) : String :=
  if k = 0 then s else s ++ "-" ++ natToStr k

theorem refIds_id_shape (prev : List String) (t : String) :
    (if prev.countP (fun u => slugOf u == slugOf t) = 0 then slugOf t
     else headingToSlug t (prev.countP (fun u => slugOf u == slugOf t))) =
      idOf (slugOf t) (prev.countP (fun u => slugOf u == slugOf t)) := by
  by_cases h0 : prev.countP (fun u => slugOf u == slugOf t) = 0
  · simp [h0, idOf]
  · simp [h0, idOf, headingToSlug]

theorem dash_split_inj (l1 : List Char) :
    ∀ (l2 r1 r2 : List Char), (∀ c ∈ l1, c ≠ '-') → (∀ c ∈ l2, c ≠ '-') →
      l1 ++ '-' :: r1 = l2 ++ '-' :: r2 → l1 = l2 ∧ r1 = r2 := by
  induction l1 with
  | nil =>
    intro l2 r1 r2 _ h2 h
    cases l2 with
    | nil => simpa using h
    | cons b bs =>
      simp only [List.nil_append, List.cons_append, List.cons.injEq] at h
      exact absurd h.1.symm (h2 b (by simp))
  | cons a as ih =>
    intro l2 r1 r2 h1 h2 h
    cases l2 with
    | nil =>
      simp only [List.nil_append, List.cons_append, List.cons.injEq] at h
      exact absurd h.1 (h1 a (by simp))
    | cons b bs =>
      simp only [List.cons_append, List.cons.injEq] at h
      obtain ⟨hab, htl⟩ := h
      obtain ⟨hl, hr⟩ := ih bs r1 r2 (fun c hc => h1 c (by simp [hc]))
        (fun c hc => h2 c (by simp [hc])) htl
      exact ⟨by rw [hab, hl], hr⟩

theorem dash_in_append (s : String) (r : String) :
    '-' ∈ (s ++ "-" ++ r).data := by
  rw [String.data_append, String.data_append]
  simp

theorem idOf_inj {s1 s2 : String} {k1 k2 : Nat}
    (h1 : ∀ c ∈ s1.data, c ≠ '-') (h2 : ∀ c ∈ s2.data, c ≠ '-')
    (h : idOf s1 k1 = idOf s2 k2) : s1 = s2 ∧ k1 = k2 := by
  rw [idOf, idOf] at h
  by_cases hk1 : k1 = 0 <;> by_cases hk2 : k2 = 0
  · rw [if_pos hk1, if_pos hk2] at h
    exact ⟨h, by rw [hk1, hk2]⟩
  · rw [if_pos hk1, if_neg hk2] at h
    have hd : '-' ∈ s1.data := by
      rw [h]
      exact dash_in_append s2 (natToStr k2)
    exact absurd rfl (h1 '-' hd)
  · rw [if_neg hk1, if_pos hk2] at h
    have hd : '-' ∈ s2.data := by
      rw [← h]
      exact dash_in_append s1 (natToStr k1)
    exact absurd rfl (h2 '-' hd)
  · rw [if_neg hk1, if_neg hk2] at h
    have hdata : s1.data ++ '-' :: (natToStr k1).data =
        s2.data ++ '-' :: (natToStr k2).data := by
      have := congrArg String.data h
      rw [String.data_append, String.data_append, String.data_append,
        String.data_append, List.append_assoc, List.append_assoc] at this
      simpa using this
    obtain ⟨hs, hr⟩ := dash_split_inj s1.data s2.data _ _ h1 h2 hdata
    refine ⟨String.ext hs, natToStr_inj (String.ext hr)⟩

theorem refIds_mem_shape (entries : List (Nat × String)) :
    ∀ (prev : List String) (x : HeadingInfo), x ∈ refIds prev entries →
      ∃ t k, t ∈ entries.map Prod.snd ∧ x.id = idOf (slugOf t) k ∧
        prev.countP (fun u => slugOf u == slugOf t) ≤ k := by
  induction entries with
  | nil => intro prev x hx; simp [refIds] at hx
  | cons e rest ih =>
    intro prev x hx
    obtain ⟨lv, t⟩ := e
    rw [refIds] at hx
    rcases List.mem_cons.1 hx with rfl | hx2
    · refine ⟨t, prev.countP (fun u => slugOf u == slugOf t), by simp, ?_, le_refl _⟩
      exact refIds_id_shape prev t
    · obtain ⟨t2, k2, ht2, hid, hk2⟩ := ih (prev ++ [t]) x hx2
      refine ⟨t2, k2, by simp [ht2], hid, ?_⟩
      calc prev.countP (fun u => slugOf u == slugOf t2)
          ≤ (prev ++ [t]).countP (fun u => slugOf u == slugOf t2) := by
            rw [List.countP_append]; omega
        _ ≤ k2 := hk2

theorem refIds_distinct (entries : List (Nat × String)) :
    ∀ (prev : List String),
      (∀ t ∈ entries.map Prod.snd, ∀ c ∈ (slugOf t).data, c ≠ '-') →
      List.Pairwise (fun a b => a.id ≠ b.id) (refIds prev entries) := by
  induction entries with
  | nil => intro prev _; simp [refIds]
  | cons e rest ih =>
    intro prev hdash
    obtain ⟨lv, t⟩ := e
    rw [refIds]
    refine List.Pairwise.cons ?_ (ih (prev ++ [t]) fun t2 ht2 => hdash t2 (by simp [ht2]))
    intro x hx heq
    obtain ⟨t2, k2, ht2, hid, hk2⟩ := refIds_mem_shape rest (prev ++ [t]) x hx
    rw [refIds_id_shape prev t, hid] at heq
    obtain ⟨hslug, hkk⟩ := idOf_inj (hdash t (by simp)) (hdash t2 (by simp [ht2])) heq
    rw [List.countP_append] at hk2
    have h1 : List.countP (fun u => slugOf u == slugOf t2) [t] = 1 := by
      simp [List.countP_cons, hslug]
    rw [h1] at hk2
    have hcnt : List.countP (fun u => slugOf u == slugOf t2) prev =
        List.countP (fun u => slugOf u == slugOf t) prev := by
      rw [hslug]
    omega

theorem refIds_titles (entries : List (Nat × String)) :
    ∀ prev, (refIds prev entries).map (fun h => (h.level, h.title)) = entries := by
  induction entries with
  | nil => intro prev; simp [refIds]
  | cons e rest ih =>
    intro prev
    obtain ⟨lv, t⟩ := e
    rw [refIds]
    simp only [List.map_cons]
    rw [ih (prev ++ [t])]

/-- Claim C8 (amended): getHeadings yields one entry per top-level heading
in document order with its text and level; ids follow the rule: the first
heading producing a slug gets the slug and each later one gets the slug
with the count of earlier occurrences appended; the ids are pairwise
distinct provided no heading's slug contains a dash (a slug of the form
slug2-k collides with the id generated for the k-th duplicate of slug2). -/
theorem getHeadings_spec (doc : List BlockNode)
    (hdash : ∀ t ∈ (headingEntries doc).map Prod.snd, ∀ c ∈ (slugOf t).data, c ≠ '-') :
    (getHeadings doc).map (fun h => (h.level, h.title)) = headingEntries doc ∧
    getHeadings doc = refIds [] (headingEntries doc) ∧
    ((getHeadings doc).map (fun h => h.id)).Pairwise (fun a b => a ≠ b) := by
  have heq := getHeadings_eq_refIds doc
  refine ⟨?_, heq, ?_⟩
  · rw [heq, refIds_titles]
  · rw [heq, List.pairwise_map]
    exact refIds_distinct (headingEntries doc) [] hdash

/-- Witness for C8 (amended): two identical headings get ids "b" and "b-1". -/
theorem getHeadings_spec_witness :
    ((getHeadings [BlockNode.heading 1 "b", BlockNode.heading 2 "b"]).map
        (fun h => (h.level, h.title)) =
      headingEntries [BlockNode.heading 1 "b", BlockNode.heading 2 "b"]) ∧
    (getHeadings [BlockNode.heading 1 "b", BlockNode.heading 2 "b"] =
      refIds [] (headingEntries [BlockNode.heading 1 "b", BlockNode.heading 2 "b"])) ∧
    ((getHeadings [BlockNode.heading 1 "b", BlockNode.heading 2 "b"]).map
        (fun h => h.id)).Pairwise (fun a b => a ≠ b) :=
  getHeadings_spec [BlockNode.heading 1 "b", BlockNode.heading 2 "b"] (by decide)

/-- Counterexample for C8 as stated: with headings "a", "a", "a-1" the ids
come out "a", "a-1", "a-1" — not pairwise distinct. -/
theorem getHeadings_ids_not_distinct :
    (getHeadings [BlockNode.heading 1 "a", BlockNode.heading 1 "a",
        BlockNode.heading 1 "a-1"]).map (fun h => h.id) = ["a", "a-1", "a-1"] ∧
    ¬ ((getHeadings [BlockNode.heading 1 "a", BlockNode.heading 1 "a",
        BlockNode.heading 1 "a-1"]).map (fun h => h.id)).Pairwise
          (fun a b => a ≠ b) := by
  refine ⟨by decide, ?_⟩
  intro hp
  rw [show (getHeadings [BlockNode.heading 1 "a", BlockNode.heading 1 "a",
      BlockNode.heading 1 "a-1"]).map (fun h => h.id) = ["a", "a-1", "a-1"]
    from by decide] at hp
  rcases hp with _ | ⟨_, hp2⟩
  rcases hp2 with _ | ⟨hp3, _⟩
  exact hp3 "a-1" (by simp) rfl

end RME
